import Mathlib

/-!
Shallow embedding of the rule dependency/conflict resolution engine of the
ai-rules-cli repository (src/core/rule-validator.ts dependency-resolver part,
src/core/rule-loader.ts), together with proofs about it.

The TypeScript functions take a `config` and load the rule catalog through
`loadAllRules`; here the already-loaded catalog (`List RuleContent`) is the
parameter, and `getAvailableRuleIds` is its projection to ids, exactly as in
`rule-loader.ts`.  JavaScript arrays become `List`s, optional relationship
arrays become `Option (List String)`, and the imperative worklist loop of
`resolveDependencies` becomes a well-founded recursion whose termination
argument is the finite available-id universe.
-/

namespace AiRules

/-- Rule metadata (the resolution-relevant fields of `RuleMetadata`). -/
structure RuleMetadata where
  id : String
  requires : Option (List String) := none
  conflicts : Option (List String) := none
  supersedes : Option (List String) := none
deriving Repr, DecidableEq

/-- A catalog record (`RuleContent` carries its metadata). -/
structure RuleContent where
  metadata : RuleMetadata
deriving Repr, DecidableEq

/-- `DependencyInfo` as in rule.types. -/
structure DependencyInfo where
  ruleId : String
  missingDependencies : List String
  addedDependencies : List String
deriving Repr, DecidableEq

/-- `ConflictInfo` as in rule.types. -/
structure ConflictInfo where
  ruleId1 : String
  ruleId2 : String
  reason : String
deriving Repr, DecidableEq

/-- `RuleSelection` as in rule.types. -/
structure RuleSelection where
  ruleId : String
  selected : Bool
  reason : String
deriving Repr, DecidableEq

/-- A superseded/superseding pair as returned by `getSupersedingRules`. -/
structure SupersedingInfo where
  superseded : String
  superseding : String
deriving Repr, DecidableEq

/-- `getAvailableRuleIds` (rule-loader.ts): ids of all loaded rules. -/
def getAvailableRuleIds (allRules : List RuleContent) : List String :=
  allRules.map (fun r => r.metadata.id)

/-- `allRules.find((r) => r.metadata.id === ruleId)`. -/
def findRule (allRules : List RuleContent) (ruleId : String) : Option RuleContent :=
  allRules.find? (fun r => r.metadata.id == ruleId)

theorem mem_getAvailableRuleIds {allRules : List RuleContent} {c : String} :
    c ∈ getAvailableRuleIds allRules ↔ ∃ r ∈ allRules, r.metadata.id = c := by
  simp [getAvailableRuleIds, List.mem_map]

theorem findRule_eq_none {allRules : List RuleContent} {c : String}
    (h : findRule allRules c = none) : c ∉ getAvailableRuleIds allRules := by
  intro hc
  rcases mem_getAvailableRuleIds.mp hc with ⟨r, hr, hid⟩
  have := List.find?_eq_none.mp h r hr
  simp [hid] at this

theorem findRule_eq_some_id {allRules : List RuleContent} {c : String} {r : RuleContent}
    (h : findRule allRules c = some r) : r ∈ allRules ∧ r.metadata.id = c := by
  refine ⟨List.mem_of_find?_eq_some h, ?_⟩
  have := List.find?_some h
  simpa using this

theorem findRule_mem_avail {allRules : List RuleContent} {c : String} {r : RuleContent}
    (h : findRule allRules c = some r) : c ∈ getAvailableRuleIds allRules := by
  rcases findRule_eq_some_id h with ⟨hr, hid⟩
  exact mem_getAvailableRuleIds.mpr ⟨r, hr, hid⟩

theorem findRule_isSome_of_mem {allRules : List RuleContent} {c : String}
    (h : c ∈ getAvailableRuleIds allRules) : ∃ r, findRule allRules c = some r := by
  cases hf : findRule allRules c with
  | none => exact absurd h (findRule_eq_none hf)
  | some r => exact ⟨r, rfl⟩

/-- Filtering with a stronger predicate yields a list no longer. -/
theorem length_filter_mono {α : Type} (l : List α) (p q : α → Bool)
    (h : ∀ a, p a = true → q a = true) :
    (l.filter p).length ≤ (l.filter q).length := by
  induction l with
  | nil => simp
  | cons x xs ih =>
    by_cases hp : p x = true
    · simp [List.filter_cons, hp, h x hp]; omega
    · have hp' : p x = false := by revert hp; cases p x <;> simp
      cases hq : q x <;> simp [List.filter_cons, hp', hq] <;> omega

/-- Filtering with a strictly stronger predicate (witnessed at one member)
yields a strictly shorter list. -/
theorem length_filter_lt {α : Type} (l : List α) (p q : α → Bool)
    (h : ∀ x, p x = true → q x = true)
    (a : α) (ha : a ∈ l) (hpa : p a = false) (hqa : q a = true) :
    (l.filter p).length < (l.filter q).length := by
  induction l with
  | nil => simp at ha
  | cons x xs ih =>
    rcases List.mem_cons.mp ha with hx | hx
    · subst hx
      simp [List.filter_cons, hpa, hqa]
      exact Nat.lt_succ_of_le (length_filter_mono xs p q h)
    · have hle := ih hx
      by_cases hp : p x = true
      · have hq := h x hp
        simp [List.filter_cons, hp, hq]
        omega
      · have hp' : p x = false := by revert hp; cases p x <;> simp
        cases hq : q x
        · simpa [List.filter_cons, hp', hq] using hle
        · simp [List.filter_cons, hp', hq]
          omega

/-- The inner `for (const requiredId of rule.metadata.requires)` loop of
`resolveDependencies`: classifies each required id as missing (not in the
available universe) or added (available, not yet processed, not in the
original selection), in declared order.  Returns
`(missingDependencies, addedDependencies)`. -/
def processRequired (availableRuleIds processed selectedRuleIds : List String) :
    List String → List String × List String
  | [] => ([], [])
  | requiredId :: rest =>
    let ma := processRequired availableRuleIds processed selectedRuleIds rest
    if requiredId ∈ availableRuleIds then
      if requiredId ∉ processed ∧ requiredId ∉ selectedRuleIds then
        (ma.1, requiredId :: ma.2)
      else ma
    else (requiredId :: ma.1, ma.2)

/-- The `while (toProcess.length > 0)` loop of `resolveDependencies`
(rule-validator.ts).  State: the FIFO worklist `toProcess` and the
`processed` set (as a list).  Returns the accumulated `DependencyInfo`
entries in emission order, paired with the final processed set (the latter
is instrumentation for verification; the source keeps the same set in a
local variable). -/
def resolveLoop (allRules : List RuleContent) (selectedRuleIds : List String) :
    List String → List String → List DependencyInfo × List String
  | [], processed => ([], processed)
  | currentId :: toProcess, processed =>
    if h1 : currentId ∈ processed then
      resolveLoop allRules selectedRuleIds toProcess processed
    else
      match h2 : findRule allRules currentId with
      | none => resolveLoop allRules selectedRuleIds toProcess (currentId :: processed)
      | some rule =>
        let ma := processRequired (getAvailableRuleIds allRules) (currentId :: processed)
          selectedRuleIds (rule.metadata.requires.getD [])
        let next := resolveLoop allRules selectedRuleIds (toProcess ++ ma.2)
          (currentId :: processed)
        if ma.1 = [] ∧ ma.2 = [] then next
        else (⟨currentId, ma.1, ma.2⟩ :: next.1, next.2)
termination_by toProcess processed =>
  (((getAvailableRuleIds allRules).filter (fun x => decide (x ∉ processed))).length,
    toProcess.length)
decreasing_by
  · apply Prod.Lex.right
    simp
  · have hne : currentId ∉ getAvailableRuleIds allRules := findRule_eq_none h2
    have heq : ((getAvailableRuleIds allRules).filter
        (fun x => decide (x ∉ currentId :: processed))).length =
        ((getAvailableRuleIds allRules).filter (fun x => decide (x ∉ processed))).length := by
      apply congrArg
      apply List.filter_congr
      intro x hx
      have hxc : x ≠ currentId := fun hc => hne (hc ▸ hx)
      simp [List.mem_cons, hxc]
    rw [heq]
    apply Prod.Lex.right
    simp
  · have hlt : (((getAvailableRuleIds allRules).filter
        (fun x => decide (x ∉ currentId :: processed))).length <
        ((getAvailableRuleIds allRules).filter (fun x => decide (x ∉ processed))).length) :=
      length_filter_lt (getAvailableRuleIds allRules)
        (fun x => decide (x ∉ currentId :: processed))
        (fun x => decide (x ∉ processed))
        (fun x hx => by
          simp at hx ⊢
          exact hx.2)
        currentId (findRule_mem_avail h2) (by simp) (by simp [h1])
    exact Prod.Lex.left _ _ hlt

/-- `resolveDependencies` (rule-validator.ts): BFS expansion of required
rules from the selection, over the catalog `allRules`. -/
def resolveDependencies (selectedRuleIds : List String) (allRules : List RuleContent) :
    List DependencyInfo :=
  (resolveLoop allRules selectedRuleIds selectedRuleIds []).1

/-- The first `for` block of `detectConflicts`: `rule1`'s own `conflicts`
entries that are also selected, in declared order. -/
def detectOwnConflicts (selectedRuleIds : List String) (ruleId1 : String)
    (conflicts : List String) : List ConflictInfo :=
  conflicts.filterMap (fun conflictingId =>
    if conflictingId ∈ selectedRuleIds then
      some ⟨ruleId1, conflictingId,
        "Rule '" ++ ruleId1 ++ "' conflicts with rule '" ++ conflictingId ++ "'"⟩
    else none)

/-- The second `for` block of `detectConflicts`: later selected rules whose
`conflicts` list mentions `ruleId1`. -/
def detectLaterConflicts (allRules : List RuleContent) (ruleId1 : String)
    (laterIds : List String) : List ConflictInfo :=
  laterIds.filterMap (fun ruleId2 =>
    if ruleId2 = "" then none
    else
      match findRule allRules ruleId2 with
      | none => none
      | some rule2 =>
        if ruleId1 ∈ rule2.metadata.conflicts.getD [] then
          some ⟨ruleId1, ruleId2,
            "Rule '" ++ ruleId2 ++ "' conflicts with rule '" ++ ruleId1 ++ "'"⟩
        else none)

/-- The outer indexed loop of `detectConflicts`, recursing on the selection
suffix (the tail is exactly the ids at indices after the current one).
A falsy id (the empty string) is skipped, as `if (!ruleId1) continue` does. -/
def detectLoop (allRules : List RuleContent) (selectedRuleIds : List String) :
    List String → List ConflictInfo
  | [] => []
  | ruleId1 :: later =>
    (if ruleId1 = "" then []
     else
       match findRule allRules ruleId1 with
       | none => []
       | some rule1 =>
         detectOwnConflicts selectedRuleIds ruleId1 (rule1.metadata.conflicts.getD []) ++
           detectLaterConflicts allRules ruleId1 later) ++
      detectLoop allRules selectedRuleIds later

/-- `detectConflicts` (rule-validator.ts). -/
def detectConflicts (selectedRuleIds : List String) (allRules : List RuleContent) :
    List ConflictInfo :=
  detectLoop allRules selectedRuleIds selectedRuleIds

/-- All `addedDependencies` of a run, concatenated in report order. -/
def addedAll (deps : List DependencyInfo) : List String :=
  deps.foldr (fun d acc => d.addedDependencies ++ acc) []

/-- `Array.from(new Set(l))`: the elements of `l` with later duplicates
dropped (JavaScript `Set` keeps insertion order, first occurrence wins). -/
def dedupFirst : List String → List String
  | [] => []
  | x :: xs => x :: dedupFirst (xs.filter (fun y => decide (y ≠ x)))
termination_by l => l.length
decreasing_by
  simp only [List.length_cons]
  exact Nat.lt_succ_of_le (List.length_filter_le _ _)

/-- `resolveAllDependencies` (rule-validator.ts): dependencies, conflicts and
the deduplicated union `finalRuleIds` of the selection with every added
dependency. -/
def resolveAllDependencies (selectedRuleIds : List String) (allRules : List RuleContent) :
    List DependencyInfo × List ConflictInfo × List String :=
  let dependencies := resolveDependencies selectedRuleIds allRules
  let conflicts := detectConflicts selectedRuleIds allRules
  let finalRuleIds := dedupFirst (selectedRuleIds ++ addedAll dependencies)
  (dependencies, conflicts, finalRuleIds)

/-- `createRuleSelections` (rule-validator.ts). -/
def createRuleSelections (ruleIds : List String) (allRules : List RuleContent) :
    List RuleSelection :=
  ruleIds.map (fun ruleId =>
    match findRule allRules ruleId with
    | some _ => ⟨ruleId, true, "manually selected"⟩
    | none => ⟨ruleId, true, "dependency"⟩)

/-- `validateRuleAvailability` (rule-validator.ts): partitions into
`(available, missing)`, both in input order. -/
def validateRuleAvailability (ruleIds : List String) (allRules : List RuleContent) :
    List String × List String :=
  let availableRuleIds := getAvailableRuleIds allRules
  (ruleIds.filter (fun r => decide (r ∈ availableRuleIds)),
    ruleIds.filter (fun r => decide (r ∉ availableRuleIds)))

/-- The loop of `getSupersedingRules`, keeping the full `ruleIds` list for
the presence check. -/
def getSupersedingRulesAux (allRules : List RuleContent) (ruleIds : List String) :
    List String → List SupersedingInfo
  | [] => []
  | ruleId :: rest =>
    (match findRule allRules ruleId with
     | some rule =>
       (rule.metadata.supersedes.getD []).filterMap (fun supersededId =>
         if supersededId ∈ ruleIds then
           some (⟨supersededId, ruleId⟩ : SupersedingInfo)
         else none)
     | none => []) ++ getSupersedingRulesAux allRules ruleIds rest

/-- `getSupersedingRules` (rule-validator.ts). -/
def getSupersedingRules (ruleIds : List String) (allRules : List RuleContent) :
    List SupersedingInfo :=
  getSupersedingRulesAux allRules ruleIds ruleIds

/-- `removeSupersededRules` (rule-validator.ts). -/
def removeSupersededRules (ruleIds : List String) (allRules : List RuleContent) :
    List String :=
  let supersededIds := (getSupersedingRules ruleIds allRules).map (fun s => s.superseded)
  ruleIds.filter (fun ruleId => decide (ruleId ∉ supersededIds))

/-- The record returned by `resolveComprehensive`. -/
structure ComprehensiveResult where
  finalSelections : List RuleSelection
  dependencies : List DependencyInfo
  conflicts : List ConflictInfo
  superseding : List SupersedingInfo
  warnings : List String
deriving Repr, DecidableEq

/-- `resolveComprehensive` (rule-validator.ts). -/
def resolveComprehensive (selectedRuleIds : List String) (allRules : List RuleContent) :
    ComprehensiveResult :=
  let availability := validateRuleAvailability selectedRuleIds allRules
  let missingWarnings :=
    if availability.2 = [] then []
    else ["Missing rules: " ++ String.intercalate ", " availability.2]
  let resolved := resolveAllDependencies availability.1 allRules
  let superseding := getSupersedingRules resolved.2.2 allRules
  let finalIds := removeSupersededRules resolved.2.2 allRules
  let finalSelections := createRuleSelections finalIds allRules
  let warnings := missingWarnings ++ resolved.1.foldl (fun acc dep =>
    if dep.missingDependencies = [] then acc
    else acc ++ ["Rule '" ++ dep.ruleId ++ "' has missing dependencies: " ++
      String.intercalate ", " dep.missingDependencies]) []
  ⟨finalSelections, resolved.1, resolved.2.1, superseding, warnings⟩

/-! Concrete catalogs used for witnesses and counterexamples. -/

/-- Two rules that each declare a conflict with the other. -/
def mutualConflictCatalog : List RuleContent :=
  [⟨⟨"a.x", none, some ["b.y"], none⟩⟩, ⟨⟨"b.y", none, some ["a.x"], none⟩⟩]

/-- A rule whose `conflicts` list contains its own id. -/
def selfConflictCatalog : List RuleContent :=
  [⟨⟨"a.a", none, some ["a.a"], none⟩⟩]

/-- A circular requirement graph: each rule requires the other. -/
def circularCatalog : List RuleContent :=
  [⟨⟨"a.x", some ["b.y"], none, none⟩⟩, ⟨⟨"b.y", some ["a.x"], none, none⟩⟩]

/-- A supersession chain: a.x supersedes b.y, b.y supersedes c.z. -/
def chainCatalog : List RuleContent :=
  [⟨⟨"a.x", none, none, some ["b.y"]⟩⟩, ⟨⟨"b.y", none, none, some ["c.z"]⟩⟩,
    ⟨⟨"c.z", none, none, none⟩⟩]

/-- t.t requires the unavailable x.x and the available u.u, which in turn
requires x.x. -/
def missingDepCatalog : List RuleContent :=
  [⟨⟨"t.t", some ["x.x", "u.u"], none, none⟩⟩, ⟨⟨"u.u", some ["x.x"], none, none⟩⟩]

/-- The end-to-end catalog of the specification. -/
def e2eCatalog : List RuleContent :=
  [⟨⟨"foundation.test", none, none, none⟩⟩,
    ⟨⟨"typescript.conventions", some ["foundation.test"], none, none⟩⟩,
    ⟨⟨"conflicting.rule", none, some ["foundation.test"], none⟩⟩]

/-! Equation lemmas for the well-founded `resolveLoop` and `dedupFirst`. -/

theorem resolveLoop_nil (R : List RuleContent) (sel pr : List String) :
    resolveLoop R sel [] pr = ([], pr) := by
  rw [resolveLoop]

theorem resolveLoop_cons_mem (R : List RuleContent) (sel : List String) {c : String}
    {pr : List String} (h : c ∈ pr) (tp : List String) :
    resolveLoop R sel (c :: tp) pr = resolveLoop R sel tp pr := by
  rw [resolveLoop]
  simp [h]

theorem resolveLoop_cons_none (R : List RuleContent) (sel : List String) {c : String}
    {pr : List String} (h : c ∉ pr) (hf : findRule R c = none) (tp : List String) :
    resolveLoop R sel (c :: tp) pr = resolveLoop R sel tp (c :: pr) := by
  rw [resolveLoop, dif_neg h]
  split
  · rfl
  · rename_i rule heq
    rw [hf] at heq
    cases heq

theorem resolveLoop_cons_some (R : List RuleContent) (sel : List String) {c : String}
    {pr : List String} {rule : RuleContent} (h : c ∉ pr) (hf : findRule R c = some rule)
    (tp : List String) :
    resolveLoop R sel (c :: tp) pr =
      (let ma := processRequired (getAvailableRuleIds R) (c :: pr) sel
        (rule.metadata.requires.getD []);
       let next := resolveLoop R sel (tp ++ ma.2) (c :: pr);
       if ma.1 = [] ∧ ma.2 = [] then next else (⟨c, ma.1, ma.2⟩ :: next.1, next.2)) := by
  rw [resolveLoop, dif_neg h]
  split
  · rename_i heq
    rw [hf] at heq
    cases heq
  · rename_i r heq
    rw [hf] at heq
    cases heq
    rfl

theorem dedupFirst_nil : dedupFirst [] = [] := by
  rw [dedupFirst]

theorem dedupFirst_cons (x : String) (xs : List String) :
    dedupFirst (x :: xs) = x :: dedupFirst (xs.filter (fun y => decide (y ≠ x))) := by
  rw [dedupFirst]

theorem mem_dedupFirst {y : String} : ∀ {l : List String}, y ∈ dedupFirst l ↔ y ∈ l := by
  intro l
  induction l using dedupFirst.induct with
  | case1 => simp [dedupFirst_nil]
  | case2 x xs ih =>
    rw [dedupFirst_cons]
    simp only [List.mem_cons, ih, List.mem_filter]
    by_cases hyx : y = x
    · simp [hyx]
    · simp [hyx]

theorem nodup_dedupFirst : ∀ (l : List String), (dedupFirst l).Nodup := by
  intro l
  induction l using dedupFirst.induct with
  | case1 => simp [dedupFirst_nil]
  | case2 x xs ih =>
    rw [dedupFirst_cons]
    refine List.nodup_cons.mpr ⟨?_, ih⟩
    intro hx
    have := (mem_dedupFirst.mp hx)
    simp [List.mem_filter] at this

theorem resolveLoop_cons_some_eq_pos (R : List RuleContent) (sel : List String) {c : String}
    {pr : List String} {rule : RuleContent} (h : c ∉ pr) (hf : findRule R c = some rule)
    (tp : List String)
    (hma : (processRequired (getAvailableRuleIds R) (c :: pr) sel
        (rule.metadata.requires.getD [])).1 = [] ∧
      (processRequired (getAvailableRuleIds R) (c :: pr) sel
        (rule.metadata.requires.getD [])).2 = []) :
    resolveLoop R sel (c :: tp) pr =
      resolveLoop R sel
        (tp ++ (processRequired (getAvailableRuleIds R) (c :: pr) sel
          (rule.metadata.requires.getD [])).2) (c :: pr) := by
  rw [resolveLoop_cons_some R sel h hf tp]
  exact if_pos hma

theorem resolveLoop_cons_some_eq_neg (R : List RuleContent) (sel : List String) {c : String}
    {pr : List String} {rule : RuleContent} (h : c ∉ pr) (hf : findRule R c = some rule)
    (tp : List String)
    (hma : ¬ ((processRequired (getAvailableRuleIds R) (c :: pr) sel
        (rule.metadata.requires.getD [])).1 = [] ∧
      (processRequired (getAvailableRuleIds R) (c :: pr) sel
        (rule.metadata.requires.getD [])).2 = [])) :
    resolveLoop R sel (c :: tp) pr =
      (⟨c, (processRequired (getAvailableRuleIds R) (c :: pr) sel
          (rule.metadata.requires.getD [])).1,
        (processRequired (getAvailableRuleIds R) (c :: pr) sel
          (rule.metadata.requires.getD [])).2⟩ ::
        (resolveLoop R sel
          (tp ++ (processRequired (getAvailableRuleIds R) (c :: pr) sel
            (rule.metadata.requires.getD [])).2) (c :: pr)).1,
       (resolveLoop R sel
          (tp ++ (processRequired (getAvailableRuleIds R) (c :: pr) sel
            (rule.metadata.requires.getD [])).2) (c :: pr)).2) := by
  rw [resolveLoop_cons_some R sel h hf tp]
  exact if_neg hma

theorem addedAll_nil : addedAll [] = [] := rfl

theorem addedAll_cons (d : DependencyInfo) (l : List DependencyInfo) :
    addedAll (d :: l) = d.addedDependencies ++ addedAll l := rfl

/-- Everything on the worklist or already processed ends up in the final
processed set. -/
theorem resolveLoop_mem_processed (R : List RuleContent) (sel : List String) :
    ∀ (tp pr : List String) (x : String), x ∈ pr ∨ x ∈ tp →
      x ∈ (resolveLoop R sel tp pr).2 := by
  intro tp pr
  induction tp, pr using resolveLoop.induct R sel with
  | case1 pr =>
    intro x hx
    rw [resolveLoop_nil]
    simpa using hx
  | case2 c tp pr hmem ih =>
    intro x hx
    rw [resolveLoop_cons_mem R sel hmem]
    apply ih
    rcases hx with h | h
    · exact Or.inl h
    · rcases List.mem_cons.mp h with h' | h'
      · exact Or.inl (h' ▸ hmem)
      · exact Or.inr h'
  | case3 c tp pr hnm hf ih =>
    intro x hx
    rw [resolveLoop_cons_none R sel hnm hf]
    apply ih
    rcases hx with h | h
    · exact Or.inl (List.mem_cons_of_mem _ h)
    · rcases List.mem_cons.mp h with h' | h'
      · exact Or.inl (h' ▸ List.mem_cons_self _ _)
      · exact Or.inr h'
  | case4 c tp pr hnm rule hf ma hma ih =>
    intro x hx
    rw [resolveLoop_cons_some_eq_pos R sel hnm hf tp hma]
    apply ih
    rcases hx with h | h
    · exact Or.inl (List.mem_cons_of_mem _ h)
    · rcases List.mem_cons.mp h with h' | h'
      · exact Or.inl (h' ▸ List.mem_cons_self _ _)
      · exact Or.inr (List.mem_append_left _ h')
  | case5 c tp pr hnm rule hf ma hma ih =>
    intro x hx
    rw [resolveLoop_cons_some_eq_neg R sel hnm hf tp hma]
    apply ih
    rcases hx with h | h
    · exact Or.inl (List.mem_cons_of_mem _ h)
    · rcases List.mem_cons.mp h with h' | h'
      · exact Or.inl (h' ▸ List.mem_cons_self _ _)
      · exact Or.inr (List.mem_append_left _ h')

/-! Basic lemmas about `processRequired`. -/

theorem processRequired_added_mem {avail pr sel : List String} :
    ∀ {reqs : List String} {q : String}, q ∈ (processRequired avail pr sel reqs).2 →
      q ∈ avail ∧ q ∉ pr ∧ q ∉ sel := by
  intro reqs
  induction reqs with
  | nil => intro q hq; simp [processRequired] at hq
  | cons r rest ih =>
    intro q hq
    rw [processRequired] at hq
    by_cases hr : r ∈ avail
    · simp only [if_pos hr] at hq
      by_cases hc : r ∉ pr ∧ r ∉ sel
      · rw [if_pos hc] at hq
        rcases List.mem_cons.mp hq with h | h
        · subst h; exact ⟨hr, hc⟩
        · exact ih h
      · rw [if_neg hc] at hq
        exact ih hq
    · simp only [if_neg hr] at hq
      exact ih hq

theorem processRequired_covers {avail pr sel : List String} :
    ∀ {reqs : List String} {q : String}, q ∈ reqs → q ∈ avail →
      q ∈ pr ∨ q ∈ sel ∨ q ∈ (processRequired avail pr sel reqs).2 := by
  intro reqs
  induction reqs with
  | nil => intro q hq; simp at hq
  | cons r rest ih =>
    intro q hq hav
    rw [processRequired]
    rcases List.mem_cons.mp hq with h | h
    · subst h
      rw [if_pos hav]
      by_cases hc : q ∉ pr ∧ q ∉ sel
      · rw [if_pos hc]
        right; right
        exact List.mem_cons_self _ _
      · rcases Decidable.not_and_iff_or_not.mp hc with h1 | h2
        · exact Or.inl (Decidable.not_not.mp h1)
        · exact Or.inr (Or.inl (Decidable.not_not.mp h2))
    · rcases ih h hav with h1 | h2 | h3
      · exact Or.inl h1
      · exact Or.inr (Or.inl h2)
      · right; right
        by_cases hr : r ∈ avail
        · rw [if_pos hr]
          by_cases hc : r ∉ pr ∧ r ∉ sel
          · rw [if_pos hc]
            exact List.mem_cons_of_mem _ h3
          · rw [if_neg hc]
            exact h3
        · rw [if_neg hr]
          exact h3

theorem processRequired_added_nil {avail pr sel : List String} :
    ∀ {reqs : List String}, (∀ q ∈ reqs, q ∈ avail → q ∈ sel) →
      (processRequired avail pr sel reqs).2 = [] := by
  intro reqs
  induction reqs with
  | nil => intro _; simp [processRequired]
  | cons r rest ih =>
    intro h
    have hrest := ih (fun q hq => h q (List.mem_cons_of_mem _ hq))
    rw [processRequired]
    by_cases hr : r ∈ avail
    · rw [if_pos hr]
      have hsel : r ∈ sel := h r (List.mem_cons_self _ _) hr
      have hc : ¬ (r ∉ pr ∧ r ∉ sel) := fun hc => hc.2 hsel
      rw [if_neg hc]
      exact hrest
    · rw [if_neg hr]
      exact hrest


/-- Everything in the final processed set was already processed, was on the
worklist, or was discovered as an added dependency. -/
theorem resolveLoop_processed_src (R : List RuleContent) (sel : List String) :
    ∀ (tp pr : List String) (x : String), x ∈ (resolveLoop R sel tp pr).2 →
      x ∈ pr ∨ x ∈ tp ∨ x ∈ addedAll (resolveLoop R sel tp pr).1 := by
  intro tp pr
  induction tp, pr using resolveLoop.induct R sel with
  | case1 pr =>
    intro x hx
    rw [resolveLoop_nil] at hx ⊢
    exact Or.inl hx
  | case2 c tp pr hmem ih =>
    intro x hx
    rw [resolveLoop_cons_mem R sel hmem] at hx ⊢
    rcases ih x hx with h | h | h
    · exact Or.inl h
    · exact Or.inr (Or.inl (List.mem_cons_of_mem _ h))
    · exact Or.inr (Or.inr h)
  | case3 c tp pr hnm hf ih =>
    intro x hx
    rw [resolveLoop_cons_none R sel hnm hf] at hx ⊢
    rcases ih x hx with h | h | h
    · rcases List.mem_cons.mp h with h' | h'
      · exact Or.inr (Or.inl (h' ▸ List.mem_cons_self _ _))
      · exact Or.inl h'
    · exact Or.inr (Or.inl (List.mem_cons_of_mem _ h))
    · exact Or.inr (Or.inr h)
  | case4 c tp pr hnm rule hf ma hma ih =>
    intro x hx
    rw [resolveLoop_cons_some_eq_pos R sel hnm hf tp hma] at hx ⊢
    rcases ih x hx with h | h | h
    · rcases List.mem_cons.mp h with h' | h'
      · exact Or.inr (Or.inl (h' ▸ List.mem_cons_self _ _))
      · exact Or.inl h'
    · rcases List.mem_append.mp h with h' | h'
      · exact Or.inr (Or.inl (List.mem_cons_of_mem _ h'))
      · rw [hma.2] at h'
        simp at h'
    · exact Or.inr (Or.inr h)
  | case5 c tp pr hnm rule hf ma hma ih =>
    intro x hx
    rw [resolveLoop_cons_some_eq_neg R sel hnm hf tp hma] at hx ⊢
    simp only [addedAll_cons] at *
    rcases ih x hx with h | h | h
    · rcases List.mem_cons.mp h with h' | h'
      · exact Or.inr (Or.inl (h' ▸ List.mem_cons_self _ _))
      · exact Or.inl h'
    · rcases List.mem_append.mp h with h' | h'
      · exact Or.inr (Or.inl (List.mem_cons_of_mem _ h'))
      · exact Or.inr (Or.inr (List.mem_append_left _ h'))
    · exact Or.inr (Or.inr (List.mem_append_right _ h))

/-- Every reported added dependency is an available id. -/
theorem resolveLoop_added_avail (R : List RuleContent) (sel : List String) :
    ∀ (tp pr : List String) (x : String), x ∈ addedAll (resolveLoop R sel tp pr).1 →
      x ∈ getAvailableRuleIds R := by
  intro tp pr
  induction tp, pr using resolveLoop.induct R sel with
  | case1 pr =>
    intro x hx
    rw [resolveLoop_nil] at hx
    simp [addedAll_nil] at hx
  | case2 c tp pr hmem ih =>
    intro x hx
    rw [resolveLoop_cons_mem R sel hmem] at hx
    exact ih x hx
  | case3 c tp pr hnm hf ih =>
    intro x hx
    rw [resolveLoop_cons_none R sel hnm hf] at hx
    exact ih x hx
  | case4 c tp pr hnm rule hf ma hma ih =>
    intro x hx
    rw [resolveLoop_cons_some_eq_pos R sel hnm hf tp hma] at hx
    exact ih x hx
  | case5 c tp pr hnm rule hf ma hma ih =>
    intro x hx
    rw [resolveLoop_cons_some_eq_neg R sel hnm hf tp hma] at hx
    simp only [addedAll_cons] at hx
    rcases List.mem_append.mp hx with h | h
    · exact (processRequired_added_mem h).1
    · exact ih x h

/-- Every reported added dependency ends up processed. -/
theorem resolveLoop_added_processed (R : List RuleContent) (sel : List String) :
    ∀ (tp pr : List String) (x : String), x ∈ addedAll (resolveLoop R sel tp pr).1 →
      x ∈ (resolveLoop R sel tp pr).2 := by
  intro tp pr
  induction tp, pr using resolveLoop.induct R sel with
  | case1 pr =>
    intro x hx
    rw [resolveLoop_nil] at hx
    simp [addedAll_nil] at hx
  | case2 c tp pr hmem ih =>
    intro x hx
    rw [resolveLoop_cons_mem R sel hmem] at hx ⊢
    exact ih x hx
  | case3 c tp pr hnm hf ih =>
    intro x hx
    rw [resolveLoop_cons_none R sel hnm hf] at hx ⊢
    exact ih x hx
  | case4 c tp pr hnm rule hf ma hma ih =>
    intro x hx
    rw [resolveLoop_cons_some_eq_pos R sel hnm hf tp hma] at hx ⊢
    exact ih x hx
  | case5 c tp pr hnm rule hf ma hma ih =>
    intro x hx
    rw [resolveLoop_cons_some_eq_neg R sel hnm hf tp hma] at hx ⊢
    simp only [addedAll_cons] at hx
    rcases List.mem_append.mp hx with h | h
    · exact resolveLoop_mem_processed R sel _ _ x
        (Or.inr (List.mem_append_right _ h))
    · exact ih x h

/-- Requirement closure of a run: for any id processed during the call but
not before it, every available required id of its catalog record is in the
original selection or in the final processed set. -/
theorem resolveLoop_closure (R : List RuleContent) (sel : List String) :
    ∀ (tp pr : List String) (c : String), c ∈ (resolveLoop R sel tp pr).2 → c ∉ pr →
      ∀ (rule : RuleContent), findRule R c = some rule →
        ∀ q ∈ rule.metadata.requires.getD [], q ∈ getAvailableRuleIds R →
          q ∈ sel ∨ q ∈ (resolveLoop R sel tp pr).2 := by
  intro tp pr
  induction tp, pr using resolveLoop.induct R sel with
  | case1 pr =>
    intro c hc hcpr
    rw [resolveLoop_nil] at hc
    exact absurd hc hcpr
  | case2 c0 tp pr hmem ih =>
    intro c hc hcpr rule hrule q hq hav
    rw [resolveLoop_cons_mem R sel hmem] at hc ⊢
    exact ih c hc hcpr rule hrule q hq hav
  | case3 c0 tp pr hnm hf ih =>
    intro c hc hcpr rule hrule q hq hav
    rw [resolveLoop_cons_none R sel hnm hf] at hc ⊢
    by_cases hcc : c = c0
    · rw [hcc] at hrule
      rw [hf] at hrule
      cases hrule
    · have hcpr' : c ∉ c0 :: pr := by
        intro h
        rcases List.mem_cons.mp h with h' | h'
        · exact hcc h'
        · exact hcpr h'
      exact ih c hc hcpr' rule hrule q hq hav
  | case4 c0 tp pr hnm rule0 hf ma hma ih =>
    intro c hc hcpr rule hrule q hq hav
    rw [resolveLoop_cons_some_eq_pos R sel hnm hf tp hma] at hc ⊢
    by_cases hcc : c = c0
    · subst hcc
      rw [hf] at hrule
      cases hrule
      rcases processRequired_covers hq hav with h | h | h
      · exact Or.inr (resolveLoop_mem_processed R sel _ _ q (Or.inl h))
      · exact Or.inl h
      · exact Or.inr (resolveLoop_mem_processed R sel _ _ q
          (Or.inr (List.mem_append_right _ h)))
    · have hcpr' : c ∉ c0 :: pr := by
        intro h
        rcases List.mem_cons.mp h with h' | h'
        · exact hcc h'
        · exact hcpr h'
      exact ih c hc hcpr' rule hrule q hq hav
  | case5 c0 tp pr hnm rule0 hf ma hma ih =>
    intro c hc hcpr rule hrule q hq hav
    rw [resolveLoop_cons_some_eq_neg R sel hnm hf tp hma] at hc ⊢
    simp only [] at hc ⊢
    by_cases hcc : c = c0
    · subst hcc
      rw [hf] at hrule
      cases hrule
      rcases processRequired_covers hq hav with h | h | h
      · exact Or.inr (resolveLoop_mem_processed R sel _ _ q (Or.inl h))
      · exact Or.inl h
      · exact Or.inr (resolveLoop_mem_processed R sel _ _ q
          (Or.inr (List.mem_append_right _ h)))
    · have hcpr' : c ∉ c0 :: pr := by
        intro h
        rcases List.mem_cons.mp h with h' | h'
        · exact hcc h'
        · exact hcpr h'
      exact ih c hc hcpr' rule hrule q hq hav

/-- If the selection is requirement-closed, a run started inside it adds
nothing. -/
theorem resolveLoop_no_new_added (R : List RuleContent) (selF : List String)
    (hcl : ∀ c ∈ selF, ∀ (rule : RuleContent), findRule R c = some rule →
      ∀ q ∈ rule.metadata.requires.getD [], q ∈ getAvailableRuleIds R → q ∈ selF) :
    ∀ (tp pr : List String), (∀ x ∈ tp, x ∈ selF) →
      ∀ e ∈ (resolveLoop R selF tp pr).1, e.addedDependencies = [] := by
  intro tp pr
  induction tp, pr using resolveLoop.induct R selF with
  | case1 pr =>
    intro _ e he
    rw [resolveLoop_nil] at he
    simp at he
  | case2 c tp pr hmem ih =>
    intro htp e he
    rw [resolveLoop_cons_mem R selF hmem] at he
    exact ih (fun x hx => htp x (List.mem_cons_of_mem _ hx)) e he
  | case3 c tp pr hnm hf ih =>
    intro htp e he
    rw [resolveLoop_cons_none R selF hnm hf] at he
    exact ih (fun x hx => htp x (List.mem_cons_of_mem _ hx)) e he
  | case4 c tp pr hnm rule hf ma hma ih =>
    intro htp e he
    rw [resolveLoop_cons_some_eq_pos R selF hnm hf tp hma] at he
    refine ih (fun x hx => ?_) e he
    rcases List.mem_append.mp hx with h | h
    · exact htp x (List.mem_cons_of_mem _ h)
    · exact absurd h (by rw [hma.2]; simp)
  | case5 c tp pr hnm rule hf ma hma ih =>
    intro htp e he
    have hc : c ∈ selF := htp c (List.mem_cons_self _ _)
    have hadd : (processRequired (getAvailableRuleIds R) (c :: pr) selF
        (rule.metadata.requires.getD [])).2 = [] :=
      processRequired_added_nil (fun q hq hav => hcl c hc rule hf q hq hav)
    rw [resolveLoop_cons_some_eq_neg R selF hnm hf tp hma] at he
    rcases List.mem_cons.mp he with h | h
    · rw [h]
      exact hadd
    · refine ih (fun x hx => ?_) e h
      rcases List.mem_append.mp hx with h' | h'
      · exact htp x (List.mem_cons_of_mem _ h')
      · exact absurd h' (by rw [hadd]; simp)

/-! Helper lemmas about the remaining resolver functions. -/

theorem createRuleSelections_eq (ids : List String) (cat : List RuleContent) :
    createRuleSelections ids cat = ids.map (fun id =>
      ⟨id, true, if (findRule cat id).isSome then "manually selected" else "dependency"⟩) := by
  induction ids with
  | nil => rfl
  | cons x xs ih =>
    simp only [createRuleSelections, List.map_cons] at *
    rw [ih]
    cases hf : findRule cat x <;> simp [hf]

theorem createRuleSelections_map_ruleId (ids : List String) (cat : List RuleContent) :
    (createRuleSelections ids cat).map (fun s => s.ruleId) = ids := by
  induction ids with
  | nil => rfl
  | cons x xs ih =>
    simp only [createRuleSelections, List.map_cons] at *
    rw [ih]
    cases hf : findRule cat x <;> simp [hf]

theorem mem_detectOwnConflicts {sel : List String} {r1 : String} {conflicts : List String}
    {c : ConflictInfo} (h : c ∈ detectOwnConflicts sel r1 conflicts) :
    c.ruleId1 = r1 ∧ c.ruleId2 ∈ conflicts ∧ c.ruleId2 ∈ sel := by
  rcases List.mem_filterMap.mp h with ⟨cid, hcid, heq⟩
  split at heq
  · cases heq
    exact ⟨rfl, hcid, by assumption⟩
  · cases heq

theorem mem_detectLaterConflicts {cat : List RuleContent} {r1 : String}
    {later : List String} {c : ConflictInfo} (h : c ∈ detectLaterConflicts cat r1 later) :
    c.ruleId1 = r1 ∧ c.ruleId2 ∈ later ∧
      ∃ rule2, findRule cat c.ruleId2 = some rule2 ∧
        r1 ∈ rule2.metadata.conflicts.getD [] := by
  rcases List.mem_filterMap.mp h with ⟨r2, hr2, heq⟩
  split at heq
  · cases heq
  · split at heq
    · cases heq
    · split at heq
      · cases heq
        exact ⟨rfl, hr2, by assumption, by assumption, by assumption⟩
      · cases heq

/-- Members of the conflict scan decompose into the two inner scans. -/
theorem mem_detectLoop {cat : List RuleContent} {sel : List String} {c : ConflictInfo} :
    ∀ {l : List String}, c ∈ detectLoop cat sel l →
      ∃ r1 rule1 later, findRule cat r1 = some rule1 ∧
        (c ∈ detectOwnConflicts sel r1 (rule1.metadata.conflicts.getD []) ∨
          c ∈ detectLaterConflicts cat r1 later) := by
  intro l
  induction l with
  | nil =>
    intro hc
    simp [detectLoop] at hc
  | cons r1 later ih =>
    intro hc
    simp only [detectLoop] at hc
    rcases List.mem_append.mp hc with h | h
    · split at h
      · simp at h
      · split at h
        · simp at h
        · rename_i rule1 hf
          rcases List.mem_append.mp h with h' | h'
          · exact ⟨r1, rule1, later, hf, Or.inl h'⟩
          · exact ⟨r1, rule1, later, hf, Or.inr h'⟩
    · exact ih h

theorem warnings_foldl (deps : List DependencyInfo) (acc : List String) :
    deps.foldl (fun acc dep =>
      if dep.missingDependencies = [] then acc
      else acc ++ ["Rule '" ++ dep.ruleId ++ "' has missing dependencies: " ++
        String.intercalate ", " dep.missingDependencies]) acc =
    acc ++ (deps.filter (fun d => decide (d.missingDependencies ≠ []))).map
      (fun d => "Rule '" ++ d.ruleId ++ "' has missing dependencies: " ++
        String.intercalate ", " d.missingDependencies) := by
  induction deps generalizing acc with
  | nil => simp
  | cons d rest ih =>
    by_cases hd : d.missingDependencies = []
    · simp [List.foldl_cons, hd, List.filter_cons, ih]
    · simp [List.foldl_cons, hd, List.filter_cons, ih]

/-- A catalog with one relationship-free rule. -/
def singleCatalog : List RuleContent :=
  [⟨⟨"a.x", none, none, none⟩⟩]

/-! Claim theorems. -/

/-- C1, counterexample: with `a.x.conflicts = [b.y]`, `b.y.conflicts = [a.x]`
and both selected, `detectConflicts` does not return exactly 2 entries
(it returns 3: each rule's own scan plus the reverse scan at the earlier
index). -/
theorem detectConflicts_mutual_not_two :
    ¬ ((detectConflicts ["a.x", "b.y"] mutualConflictCatalog).length = 2) := by
  decide

/-- C1, amended: for the mutual-conflict pair, `detectConflicts` returns
exactly 3 `ConflictInfo` entries: A's own-conflicts scan, the reverse scan
at A's index catching B's declaration, and B's own-conflicts scan. -/
theorem detectConflicts_mutual_three :
    detectConflicts ["a.x", "b.y"] mutualConflictCatalog =
      [⟨"a.x", "b.y", "Rule 'a.x' conflicts with rule 'b.y'"⟩,
       ⟨"a.x", "b.y", "Rule 'b.y' conflicts with rule 'a.x'"⟩,
       ⟨"b.y", "a.x", "Rule 'b.y' conflicts with rule 'a.x'"⟩] ∧
    (detectConflicts ["a.x", "b.y"] mutualConflictCatalog).length = 3 := by
  exact ⟨rfl, rfl⟩

/-- C3: with `a.x.requires = [b.y]` and `b.y.requires = [a.x]`, both in the
catalog, the expansion of `[a.x]` terminates with the single entry
`{ruleId := a.x, missingDependencies := [], addedDependencies := [b.y]}`;
and the expander is total on every selection and finite catalog. -/
theorem resolveDependencies_circular_terminates :
    resolveDependencies ["a.x"] circularCatalog =
      [⟨"a.x", [], ["b.y"]⟩] ∧
    ∀ (sel : List String) (cat : List RuleContent),
      ∃ out, resolveDependencies sel cat = out := by
  constructor
  · simp [resolveDependencies, resolveLoop_nil, resolveLoop_cons_mem, resolveLoop_cons_none,
      resolveLoop_cons_some, processRequired, circularCatalog, findRule, getAvailableRuleIds]
  · exact fun sel cat => ⟨_, rfl⟩

/-- C4: the supersession reducer returns the input ids filtered, in input
order, to exclude every id appearing as superseded in a discovered pair
over the original list; in a chain a.x ⊐ b.y ⊐ c.z with all three selected,
both b.y and c.z are removed in one pass. -/
theorem removeSupersededRules_filters_superseded :
    (∀ (ids : List String) (cat : List RuleContent) (x : String),
      x ∈ removeSupersededRules ids cat ↔
        x ∈ ids ∧ ∀ p ∈ getSupersedingRules ids cat, p.superseded ≠ x) ∧
    (∀ (ids : List String) (cat : List RuleContent),
      (removeSupersededRules ids cat).Sublist ids) ∧
    removeSupersededRules ["a.x", "b.y", "c.z"] chainCatalog = ["a.x"] := by
  refine ⟨?_, ?_, ?_⟩
  · intro ids cat x
    simp only [removeSupersededRules, List.mem_filter, decide_eq_true_eq]
    constructor
    · rintro ⟨h1, h2⟩
      exact ⟨h1, fun p hp hpx => h2 (List.mem_map.mpr ⟨p, hp, hpx⟩)⟩
    · rintro ⟨h1, h2⟩
      refine ⟨h1, fun hmem => ?_⟩
      rcases List.mem_map.mp hmem with ⟨p, hp, hpx⟩
      exact h2 p hp hpx
  · intro ids cat
    exact List.filter_sublist _
  · rfl

/-- C9: each resolver function is total: for every selection and catalog it
returns a normal result (anomalies appear only inside the returned data). -/
theorem resolver_functions_total :
    ∀ (sel : List String) (cat : List RuleContent),
      (∃ deps, resolveDependencies sel cat = deps) ∧
      (∃ confs, detectConflicts sel cat = confs) ∧
      (∃ sups, getSupersedingRules sel cat = sups) ∧
      (∃ kept, removeSupersededRules sel cat = kept) ∧
      (∃ res, resolveComprehensive sel cat = res) :=
  fun _ _ => ⟨⟨_, rfl⟩, ⟨_, rfl⟩, ⟨_, rfl⟩, ⟨_, rfl⟩, ⟨_, rfl⟩⟩

/-- C2: every final selection is marked `selected := true`, and its reason
is "manually selected" exactly when a catalog record with its id exists,
"dependency" exactly when none does. -/
theorem resolveComprehensive_reason_catalog_presence :
    ∀ (sel : List String) (cat : List RuleContent) (s : RuleSelection),
      s ∈ (resolveComprehensive sel cat).finalSelections →
        s.selected = true ∧
        (s.reason = "manually selected" ↔ ∃ r ∈ cat, r.metadata.id = s.ruleId) ∧
        (s.reason = "dependency" ↔ ¬ ∃ r ∈ cat, r.metadata.id = s.ruleId) := by
  intro sel cat s hs
  have hfs : (resolveComprehensive sel cat).finalSelections =
      createRuleSelections (removeSupersededRules
        (resolveAllDependencies (validateRuleAvailability sel cat).1 cat).2.2 cat) cat := rfl
  rw [hfs, createRuleSelections_eq] at hs
  obtain ⟨id, hid, heq⟩ := List.mem_map.mp hs
  have hsel : s.selected = true := by rw [← heq]
  have hrid : s.ruleId = id := by rw [← heq]
  have hreason : s.reason =
      if (findRule cat id).isSome then "manually selected" else "dependency" := by
    rw [← heq]
  rw [hrid]
  refine ⟨hsel, ?_, ?_⟩
  · cases hf : findRule cat id with
    | some r =>
      have hex : ∃ r' ∈ cat, r'.metadata.id = id := by
        rcases findRule_eq_some_id hf with ⟨h1, h2⟩
        exact ⟨r, h1, h2⟩
      rw [hf] at hreason
      simp at hreason
      rw [hreason]
      exact ⟨fun _ => hex, fun _ => rfl⟩
    | none =>
      have hnex : ¬ ∃ r' ∈ cat, r'.metadata.id = id := by
        rintro ⟨r', hr', hid'⟩
        exact findRule_eq_none hf (mem_getAvailableRuleIds.mpr ⟨r', hr', hid'⟩)
      rw [hf] at hreason
      simp at hreason
      rw [hreason]
      exact ⟨fun h => absurd h (by decide), fun h => absurd h hnex⟩
  · cases hf : findRule cat id with
    | some r =>
      have hex : ∃ r' ∈ cat, r'.metadata.id = id := by
        rcases findRule_eq_some_id hf with ⟨h1, h2⟩
        exact ⟨r, h1, h2⟩
      rw [hf] at hreason
      simp at hreason
      rw [hreason]
      exact ⟨fun h => absurd h (by decide), fun hne => absurd hex hne⟩
    | none =>
      have hnex : ¬ ∃ r' ∈ cat, r'.metadata.id = id := by
        rintro ⟨r', hr', hid'⟩
        exact findRule_eq_none hf (mem_getAvailableRuleIds.mpr ⟨r', hr', hid'⟩)
      rw [hf] at hreason
      simp at hreason
      rw [hreason]
      exact ⟨fun _ => hnex, fun _ => rfl⟩

/-- C10: through the orchestrator the "dependency" label is unreachable:
every final selection has reason "manually selected", because availability
filtering keeps only catalog ids, expansion only adds available ids, and
supersession only removes ids. -/
theorem resolveComprehensive_reason_always_manually_selected :
    ∀ (sel : List String) (cat : List RuleContent) (s : RuleSelection),
      s ∈ (resolveComprehensive sel cat).finalSelections →
        s.reason = "manually selected" := by
  intro sel cat s hs
  have hfs : (resolveComprehensive sel cat).finalSelections =
      createRuleSelections (removeSupersededRules
        (resolveAllDependencies (validateRuleAvailability sel cat).1 cat).2.2 cat) cat := rfl
  rw [hfs, createRuleSelections_eq] at hs
  obtain ⟨id, hid, heq⟩ := List.mem_map.mp hs
  have hreason : s.reason =
      if (findRule cat id).isSome then "manually selected" else "dependency" := by
    rw [← heq]
  have hmemF : id ∈ (resolveAllDependencies (validateRuleAvailability sel cat).1 cat).2.2 := by
    have hrm : removeSupersededRules
        (resolveAllDependencies (validateRuleAvailability sel cat).1 cat).2.2 cat =
        ((resolveAllDependencies (validateRuleAvailability sel cat).1 cat).2.2).filter
          (fun ruleId => decide (ruleId ∉
            (getSupersedingRules
              (resolveAllDependencies (validateRuleAvailability sel cat).1 cat).2.2 cat).map
              (fun p => p.superseded))) := rfl
    rw [hrm] at hid
    exact (List.mem_filter.mp hid).1
  have hmem2 : id ∈ (validateRuleAvailability sel cat).1 ++
      addedAll (resolveLoop cat (validateRuleAvailability sel cat).1
        (validateRuleAvailability sel cat).1 []).1 := by
    have hdd : (resolveAllDependencies (validateRuleAvailability sel cat).1 cat).2.2 =
        dedupFirst ((validateRuleAvailability sel cat).1 ++
          addedAll (resolveLoop cat (validateRuleAvailability sel cat).1
            (validateRuleAvailability sel cat).1 []).1) := rfl
    rw [hdd] at hmemF
    exact mem_dedupFirst.mp hmemF
  have hav : id ∈ getAvailableRuleIds cat := by
    rcases List.mem_append.mp hmem2 with h | h
    · have hv : (validateRuleAvailability sel cat).1 =
          sel.filter (fun r => decide (r ∈ getAvailableRuleIds cat)) := rfl
      rw [hv] at h
      have := (List.mem_filter.mp h).2
      simpa using this
    · exact resolveLoop_added_avail cat _ _ _ id h
  obtain ⟨r, hr⟩ := findRule_isSome_of_mem hav
  rw [hr] at hreason
  simpa using hreason

/-- C8: the ruleIds of the final selections of any comprehensive resolution
are pairwise distinct, even when the input selection has duplicates. -/
theorem resolveComprehensive_finalSelections_nodup :
    ∀ (sel : List String) (cat : List RuleContent),
      ((resolveComprehensive sel cat).finalSelections.map (fun s => s.ruleId)).Nodup := by
  intro sel cat
  have hfs : (resolveComprehensive sel cat).finalSelections =
      createRuleSelections (removeSupersededRules
        (resolveAllDependencies (validateRuleAvailability sel cat).1 cat).2.2 cat) cat := rfl
  rw [hfs, createRuleSelections_map_ruleId]
  exact List.Nodup.filter _ (nodup_dedupFirst _)

/-- C6: the warnings of a comprehensive resolution are exactly the
missing-rules warning (present iff some selected id is unknown to the
catalog) followed by one warning per dependency entry with missing
dependencies, in discovery order. -/
theorem resolveComprehensive_warnings_content_order :
    ∀ (sel : List String) (cat : List RuleContent),
      (resolveComprehensive sel cat).warnings =
        (if (validateRuleAvailability sel cat).2 = [] then []
         else ["Missing rules: " ++
           String.intercalate ", " (validateRuleAvailability sel cat).2]) ++
        ((resolveComprehensive sel cat).dependencies.filter
          (fun d => decide (d.missingDependencies ≠ []))).map
          (fun d => "Rule '" ++ d.ruleId ++ "' has missing dependencies: " ++
            String.intercalate ", " d.missingDependencies) ∧
      ((validateRuleAvailability sel cat).2 = [] ↔
        ∀ id ∈ sel, id ∈ getAvailableRuleIds cat) := by
  intro sel cat
  constructor
  · have hw : (resolveComprehensive sel cat).warnings =
        (if (validateRuleAvailability sel cat).2 = [] then []
         else ["Missing rules: " ++
           String.intercalate ", " (validateRuleAvailability sel cat).2]) ++
        (resolveComprehensive sel cat).dependencies.foldl (fun acc dep =>
          if dep.missingDependencies = [] then acc
          else acc ++ ["Rule '" ++ dep.ruleId ++ "' has missing dependencies: " ++
            String.intercalate ", " dep.missingDependencies]) [] := rfl
    rw [hw, warnings_foldl]
    rw [List.nil_append]
  · have hv : (validateRuleAvailability sel cat).2 =
        sel.filter (fun r => decide (r ∉ getAvailableRuleIds cat)) := rfl
    rw [hv, List.filter_eq_nil_iff]
    simp

/-- C5: re-running the dependency expander on the expanded id set
(`finalRuleIds`, the union of the selection with all added dependencies of
the first run) reports no new added dependencies. -/
theorem resolveDependencies_expansion_idempotent :
    ∀ (sel : List String) (cat : List RuleContent) (e : DependencyInfo),
      e ∈ resolveDependencies (resolveAllDependencies sel cat).2.2 cat →
        e.addedDependencies = [] := by
  intro sel cat e he
  have hmemF : ∀ x, x ∈ (resolveAllDependencies sel cat).2.2 ↔
      x ∈ sel ∨ x ∈ addedAll (resolveLoop cat sel sel []).1 := by
    intro x
    have hdd : (resolveAllDependencies sel cat).2.2 =
        dedupFirst (sel ++ addedAll (resolveLoop cat sel sel []).1) := rfl
    rw [hdd, mem_dedupFirst, List.mem_append]
  have hcl : ∀ c ∈ (resolveAllDependencies sel cat).2.2, ∀ (rule : RuleContent),
      findRule cat c = some rule → ∀ q ∈ rule.metadata.requires.getD [],
        q ∈ getAvailableRuleIds cat → q ∈ (resolveAllDependencies sel cat).2.2 := by
    intro c hc rule hrule q hq hav
    have hcproc : c ∈ (resolveLoop cat sel sel []).2 := by
      rcases (hmemF c).mp hc with h | h
      · exact resolveLoop_mem_processed cat sel sel [] c (Or.inr h)
      · exact resolveLoop_added_processed cat sel sel [] c h
    rcases resolveLoop_closure cat sel sel [] c hcproc (by simp) rule hrule q hq hav with
      h | h
    · exact (hmemF q).mpr (Or.inl h)
    · rcases resolveLoop_processed_src cat sel sel [] q h with h' | h' | h'
      · simp at h'
      · exact (hmemF q).mpr (Or.inl h')
      · exact (hmemF q).mpr (Or.inr h')
  exact resolveLoop_no_new_added cat (resolveAllDependencies sel cat).2.2 hcl
    (resolveAllDependencies sel cat).2.2 [] (fun x hx => hx) e he

/-- C7, counterexample: when a selected rule's conflicts list contains its
own id, `detectConflicts` emits a self-pair. -/
theorem detectConflicts_self_pair_counterexample :
    ∃ c ∈ detectConflicts ["a.a"] selfConflictCatalog, c.ruleId1 = c.ruleId2 := by
  decide

/-- C7, amended: when no catalog rule lists its own id among its conflicts,
no reported conflict is a self-pair. -/
theorem detectConflicts_no_self_pairs_if_no_self_declared :
    ∀ (sel : List String) (cat : List RuleContent),
      (∀ r ∈ cat, r.metadata.id ∉ r.metadata.conflicts.getD []) →
      ∀ c ∈ detectConflicts sel cat, c.ruleId1 ≠ c.ruleId2 := by
  intro sel cat hno c hc hceq
  obtain ⟨r1, rule1, later, hf, hcase⟩ := mem_detectLoop hc
  rcases hcase with h | h
  · obtain ⟨h1, h2, _⟩ := mem_detectOwnConflicts h
    rcases findRule_eq_some_id hf with ⟨hmem, hid⟩
    apply hno rule1 hmem
    rw [hid, ← h1, hceq]
    exact h2
  · obtain ⟨h1, _, rule2, hf2, hin⟩ := mem_detectLaterConflicts h
    rcases findRule_eq_some_id hf2 with ⟨hmem2, hid2⟩
    apply hno rule2 hmem2
    rw [hid2, ← hceq, h1]
    exact hin

/-- Witness for C2 at a concrete resolution. -/
theorem resolveComprehensive_reason_catalog_presence_witness :
    (⟨"a.x", true, "manually selected"⟩ : RuleSelection) ∈
      (resolveComprehensive ["a.x"] singleCatalog).finalSelections ∧
    ((⟨"a.x", true, "manually selected"⟩ : RuleSelection).selected = true ∧
      ((⟨"a.x", true, "manually selected"⟩ : RuleSelection).reason = "manually selected" ↔
        ∃ r ∈ singleCatalog, r.metadata.id =
          (⟨"a.x", true, "manually selected"⟩ : RuleSelection).ruleId) ∧
      ((⟨"a.x", true, "manually selected"⟩ : RuleSelection).reason = "dependency" ↔
        ¬ ∃ r ∈ singleCatalog, r.metadata.id =
          (⟨"a.x", true, "manually selected"⟩ : RuleSelection).ruleId)) := by
  have hm : (⟨"a.x", true, "manually selected"⟩ : RuleSelection) ∈
      (resolveComprehensive ["a.x"] singleCatalog).finalSelections := by
    simp [resolveComprehensive, validateRuleAvailability, resolveAllDependencies,
      resolveDependencies, resolveLoop_nil, resolveLoop_cons_mem, resolveLoop_cons_none,
      resolveLoop_cons_some, processRequired, detectConflicts, detectLoop, detectOwnConflicts,
      detectLaterConflicts, dedupFirst_nil, dedupFirst_cons, addedAll, removeSupersededRules,
      getSupersedingRules, getSupersedingRulesAux, createRuleSelections, findRule,
      getAvailableRuleIds, singleCatalog]
  exact ⟨hm, resolveComprehensive_reason_catalog_presence ["a.x"] singleCatalog _ hm⟩

/-- Witness for C5 at a concrete expansion. -/
theorem resolveDependencies_expansion_idempotent_witness :
    (⟨"t.t", ["x.x"], []⟩ : DependencyInfo) ∈
      resolveDependencies (resolveAllDependencies ["t.t"] missingDepCatalog).2.2
        missingDepCatalog ∧
    (⟨"t.t", ["x.x"], []⟩ : DependencyInfo).addedDependencies = [] := by
  have hm : (⟨"t.t", ["x.x"], []⟩ : DependencyInfo) ∈
      resolveDependencies (resolveAllDependencies ["t.t"] missingDepCatalog).2.2
        missingDepCatalog := by
    simp [validateRuleAvailability, resolveAllDependencies,
      resolveDependencies, resolveLoop_nil, resolveLoop_cons_mem, resolveLoop_cons_none,
      resolveLoop_cons_some, processRequired, detectConflicts, detectLoop, detectOwnConflicts,
      detectLaterConflicts, dedupFirst_nil, dedupFirst_cons, addedAll, findRule,
      getAvailableRuleIds, missingDepCatalog]
  exact ⟨hm, resolveDependencies_expansion_idempotent ["t.t"] missingDepCatalog _ hm⟩

/-- Witness for the amended C7 at a concrete catalog with no self-declared
conflicts. -/
theorem detectConflicts_no_self_pairs_witness :
    (∀ r ∈ mutualConflictCatalog, r.metadata.id ∉ r.metadata.conflicts.getD []) ∧
    (⟨"a.x", "b.y", "Rule 'a.x' conflicts with rule 'b.y'"⟩ : ConflictInfo) ∈
      detectConflicts ["a.x", "b.y"] mutualConflictCatalog ∧
    (⟨"a.x", "b.y", "Rule 'a.x' conflicts with rule 'b.y'"⟩ : ConflictInfo).ruleId1 ≠
      (⟨"a.x", "b.y", "Rule 'a.x' conflicts with rule 'b.y'"⟩ : ConflictInfo).ruleId2 := by
  refine ⟨by decide, by decide, ?_⟩
  exact detectConflicts_no_self_pairs_if_no_self_declared ["a.x", "b.y"]
    mutualConflictCatalog (by decide) _ (by decide)

/-- Witness for C10 at a concrete resolution. -/
theorem resolveComprehensive_reason_always_manually_selected_witness :
    (⟨"a.x", true, "manually selected"⟩ : RuleSelection) ∈
      (resolveComprehensive ["a.x"] singleCatalog).finalSelections ∧
    (⟨"a.x", true, "manually selected"⟩ : RuleSelection).reason = "manually selected" := by
  have hm : (⟨"a.x", true, "manually selected"⟩ : RuleSelection) ∈
      (resolveComprehensive ["a.x"] singleCatalog).finalSelections := by
    simp [resolveComprehensive, validateRuleAvailability, resolveAllDependencies,
      resolveDependencies, resolveLoop_nil, resolveLoop_cons_mem, resolveLoop_cons_none,
      resolveLoop_cons_some, processRequired, detectConflicts, detectLoop, detectOwnConflicts,
      detectLaterConflicts, dedupFirst_nil, dedupFirst_cons, addedAll, removeSupersededRules,
      getSupersedingRules, getSupersedingRulesAux, createRuleSelections, findRule,
      getAvailableRuleIds, singleCatalog]
  exact ⟨hm,
    resolveComprehensive_reason_always_manually_selected ["a.x"] singleCatalog _ hm⟩

end AiRules
